import Mathlib

/-!
Shallow embedding of the timing-instrumentation core of the media-tests
repository: `src/StepTimesDB.js` and `src/InstrumentedTransformStream.js`.

Modelling conventions:
- JavaScript numbers are modelled as `Int` (every timestamp and duration in
  the claims is integral; `Math.round` of an integer is the identity, and
  `Math.round` of an exact quotient is modelled by `jsRoundDiv`).
- A missing or `undefined`/`null` field is modelled with `Option`;
  JavaScript truthiness of a numeric field (`undefined`, `null` and `0` are
  falsy) is `truthyN`.
- `Array.prototype.sort` with a comparator is a stable sort; it is modelled
  by the stable insertion sort `stableSort` with the comparator's strict
  "less" as argument (a `NaN` comparator result is treated as "equal", as
  the ECMAScript specification prescribes).  `sort()` without a comparator
  compares the decimal string forms of the numbers (`jsNumLt`).
- In-place mutation of the store by `computeStats` is modelled by returning
  the updated store state alongside the report; the report's `all` field and
  the store's entry array are one and the same list, matching the aliasing
  in the source.
-/

namespace MediaTests

/-- JS truthiness of an optional numeric field: `undefined`, `null` and `0` are falsy. -/
def truthyN : Option Int → Bool
  | none => false
  | some v => v != 0

/-- Math.round (a / b) for a positive denominator b, computed exactly as
floor (a / b + 1 / 2). -/
def jsRoundDiv (a b : Int) : Int := (2 * a + b).fdiv (2 * b)

/-- Minimum of a list of numbers, `none` on the empty list (models the
`Infinity` result of `Math.min()` with no arguments). -/
def minAux : List Int → Option Int
  | [] => none
  | x :: xs =>
    match minAux xs with
    | none => some x
    | some m => some (min x m)

/-- Maximum of a list of numbers, `none` on the empty list. -/
def maxAux : List Int → Option Int
  | [] => none
  | x :: xs =>
    match maxAux xs with
    | none => some x
    | some m => some (max x m)

/-- The smallest element of `starts` strictly greater than `s`, if any. -/
def nextStart? (starts : List Int) (s : Int) : Option Int :=
  minAux (starts.filter (fun x => decide (s < x)))

/-- Stable insertion of `x` into `l`: `x` is placed before the first element
that is not strictly below it, so it lands after all earlier equal elements. -/
def stableInsert (lt : α → α → Bool) (x : α) : List α → List α
  | [] => [x]
  | y :: ys => if lt y x then y :: stableInsert lt x ys else x :: y :: ys

/-- Stable insertion sort; for a consistent comparator this computes exactly
the result mandated for `Array.prototype.sort` (stable, ascending). -/
def stableSort (lt : α → α → Bool) : List α → List α
  | [] => []
  | x :: xs => stableInsert lt x (stableSort lt xs)

/-- Pair every element with its position, starting at `k`. -/
def idxFrom (k : Nat) : List α → List (Nat × α)
  | [] => []
  | x :: xs => (k, x) :: idxFrom (k + 1) xs

/-- Fuel-driven digit expansion (structurally recursive so that it reduces
inside `decide`); `fuel = n + 1` always suffices since the argument shrinks
by a factor of ten each step. -/
def digsAux : Nat → Nat → List Nat
  | 0, _ => []
  | fuel + 1, n => if n < 10 then [48 + n] else digsAux fuel (n / 10) ++ [48 + n % 10]

/-- Decimal digit character codes of a natural number, most significant first. -/
def digs (n : Nat) : List Nat := digsAux (n + 1) n

/-- UTF-16 code units of the JavaScript string form `String(n)` of an integer. -/
def jsCodes (n : Int) : List Nat :=
  if n < 0 then 45 :: digs n.natAbs else digs n.natAbs

/-- Lexicographic comparison of code-unit sequences, as JS string `<`. -/
def lexLt : List Nat → List Nat → Bool
  | _, [] => false
  | [], _ :: _ => true
  | a :: as, b :: bs => if a = b then lexLt as bs else decide (a < b)

/-- The default `Array.prototype.sort` order on numbers: compare their string
forms lexicographically. -/
def jsNumLt (a b : Int) : Bool := lexLt (jsCodes a) (jsCodes b)

/-- One recorded step interval `{ start, end }`; the JS `end` property is
modelled by the field `stop?` (`end` is reserved in Lean). -/
structure Interval where
  start? : Option Int
  stop? : Option Int
deriving DecidableEq, Repr

/-- One timing entry of the database: the value of the configured
chunk-identifier property (`id?`, `none` when absent or `null`) together with
the named step intervals in JS object key order. -/
structure Entry where
  id? : Option Int
  steps : List (String × Interval)
deriving DecidableEq, Repr

/-- Property read `steps[k]`: value at the first binding of key `k`. -/
def getStep (l : List (String × Interval)) (k : String) : Option Interval :=
  (l.find? (fun kv => kv.1 == k)).map (fun kv => kv.2)

/-- Property write `obj[k] = v`: overwrite the first binding in place, or
append a new binding at the end, as JS objects do. -/
def setStep : List (String × Interval) → String → Interval → List (String × Interval)
  | [], k, v => [(k, v)]
  | kv :: rest, k, v => if kv.1 == k then (k, v) :: rest else kv :: setStep rest k v

namespace Entry

/-- Property read `entry[step]`. -/
def get (e : Entry) (k : String) : Option Interval := getStep e.steps k

/-- The assignment `entry[step].end = v` (leaves the entry unchanged when the
step interval is absent; every use in the source guards on its presence). -/
def setStopTime (e : Entry) (k : String) (v : Int) : Entry :=
  match e.get k with
  | some iv => { e with steps := setStep e.steps k { iv with stop? := some v } }
  | none => e

/-- Object.assign(base, e): copy every own property of `e` onto `base`, in
`e`'s key order; existing keys keep their position, new keys are appended. -/
def objAssign (base e : Entry) : Entry :=
  { id? := match e.id? with
      | some v => some v
      | none => base.id?
    steps := e.steps.foldl (fun acc kv => setStep acc kv.1 kv.2) base.steps }

end Entry

/-- The StepTimesDB state: the designated initial and final steps given to the
constructor and the private `#times` entry array.  The `chunkIdProperty` is
modelled implicitly by `Entry.id?`; the constructor's `excludeSteps` field is
written but never read by the source and is omitted. -/
structure StepTimesDB where
  initialStep : Option String := none
  finalStep : Option String := none
  times : List Entry := []
deriving DecidableEq, Repr

namespace StepTimesDB

/-- `find(id)`: first entry whose identifier property strictly equals `id`. -/
def find (db : StepTimesDB) (id : Int) : Option Entry :=
  db.times.find? (fun t => t.id? == some id)

/-- The body of `addEntry` once the identifier is known truthy: merge into the
first entry with the same identifier via Object.assign, else push at the end. -/
def insertEntry : List Entry → Entry → List Entry
  | [], e => [e]
  | x :: xs, e => if x.id? == e.id? then Entry.objAssign x e :: xs else x :: insertEntry xs e

/-- `addEntry(entry)`: silently skip entries with a falsy identifier, merge
into an existing entry with the same identifier, or push. -/
def addEntry (db : StepTimesDB) (entry : Entry) : StepTimesDB :=
  if truthyN entry.id? then { db with times := insertEntry db.times entry } else db

/-- `addEntries(entries)`: add each entry in order. -/
def addEntries (db : StepTimesDB) (entries : List Entry) : StepTimesDB :=
  entries.foldl addEntry db

/-- The `getDurations` closure of `computeStats`: for each entry whose final
step has a truthy `end` and whose starting step has a truthy `start`, the
difference `end - start`. -/
def getDurations (times : List Entry) (startingStep finalStep : String) : List Int :=
  times.filterMap (fun t =>
    let fe := (t.get finalStep).bind (fun iv => iv.stop?)
    let ss := (t.get startingStep).bind (fun iv => iv.start?)
    if truthyN fe && truthyN ss then some (fe.getD 0 - ss.getD 0) else none)

/-- The `{count, min, max, avg, median}` record computed by the inner
`computeStats` closure; the `Option` fields are `none` exactly when the JS
code produces a non-finite value (`Infinity`/`NaN` on an empty input). -/
structure StatsReport where
  count : Nat
  min? : Option Int
  max? : Option Int
  avg? : Option Int
  median? : Option Int
deriving DecidableEq, Repr

/-- The inner `computeStats` closure: note that the median is taken from
`durations.slice().sort()`, i.e. from the array sorted with the DEFAULT
comparator, which compares the numbers as strings. -/
def computeDurationStats (durations : List Int) : StatsReport :=
  let sorted := stableSort jsNumLt durations
  let count := durations.length
  let sum := durations.foldl (fun a b => a + b) 0
  let half := count / 2
  { count := count
    min? := minAux durations
    max? := maxAux durations
    avg? := if count == 0 then none else some (jsRoundDiv sum count)
    median? :=
      if count % 2 == 1 then sorted.get? half
      else
        match sorted.get? (half - 1), sorted.get? half with
        | some a, some b => some (jsRoundDiv (a + b) 2)
        | _, _ => none }

/-- A value of `Object.values(entry)`: either the numeric identifier property
or one of the step intervals. -/
inductive JsVal where
  | num (v : Int)
  | intv (iv : Interval)
deriving DecidableEq, Repr

/-- Reading `.start` on an `Object.values` element (`undefined` on the number). -/
def JsVal.start? : JsVal → Option Int
  | .num _ => none
  | .intv iv => iv.start?

/-- Reading `.end` on an `Object.values` element. -/
def JsVal.stop? : JsVal → Option Int
  | .num _ => none
  | .intv iv => iv.stop?

/-- `Object.values(entry)`, identifier property first (the source creates each
entry with the identifier property before any step interval). -/
def entryValues (e : Entry) : List JsVal :=
  (match e.id? with
   | some v => [JsVal.num v]
   | none => []) ++ e.steps.map (fun kv => JsVal.intv kv.2)

/-- The comparator `(t1, t2) => (t1.start - t2.start) || (t1.end - t2.end)` of
`computeQueuedDuration`, as a strict order; a `NaN` result (some operand
missing) compares as "equal". -/
def timeLt (a b : JsVal) : Bool :=
  match a.start?, b.start? with
  | some s1, some s2 =>
    if s1 = s2 then
      match a.stop?, b.stop? with
      | some e1, some e2 => decide (e1 < e2)
      | _, _ => false
    else decide (s1 < s2)
  | _, _ => false

/-- Sum of the gaps between consecutive values: `next.start - current.end`. -/
def gapSum : List JsVal → Int
  | [] => 0
  | [_] => 0
  | a :: b :: rest => (b.start?.getD 0 - a.stop?.getD 0) + gapSum (b :: rest)

/-- The `computeQueuedDuration` closure of `computeStats`: keep the entry's
object values whose `start` is at most the designated final step's start (all
of them when that start is falsy or no final step is designated), sort them,
return `null` when any kept value has a falsy `start` or `end`, else sum the
inter-interval gaps. -/
def computeQueuedDuration (finalStep : Option String) (e : Entry) : Option Int :=
  let finalTime : Option Int := finalStep.bind (fun f => (e.get f).bind (fun iv => iv.start?))
  let vals := entryValues e
  let filtered :=
    if truthyN finalTime then
      vals.filter (fun v =>
        match v.start? with
        | some s => decide (s ≤ finalTime.getD 0)
        | none => false)
    else vals
  let sorted := stableSort timeLt filtered
  if sorted.any (fun v => !truthyN v.start? || !truthyN v.stop?) then none
  else some (gapSum sorted)

/-- The argument of `computeStats(queuedDurations)`: the per-entry queued
durations with the falsy ones (`null` and `0`) filtered out. -/
def queuedDurationsOf (finalStep : Option String) (times : List Entry) : List Int :=
  (times.map (computeQueuedDuration finalStep)).filterMap (fun s =>
    match s with
    | some v => if v != 0 then some v else none
    | none => none)

/-- The set of processing steps, in first-encounter order (a JS `Set`). -/
def collectSteps (times : List Entry) : List String :=
  times.foldl
    (fun acc e => e.steps.foldl
      (fun a kv => if a.contains kv.1 then a else a ++ [kv.1]) acc) []

/-- The comparator `(t1, t2) => t1[step]?.start - t2[step]?.start` of the
open-interval resolution loop; a `NaN` result compares as "equal". -/
def entryStepLt (step : String) (a b : Entry) : Bool :=
  match (a.get step).bind (fun iv => iv.start?), (b.get step).bind (fun iv => iv.start?) with
  | some s1, some s2 => decide (s1 < s2)
  | _, _ => false

/-- Walk of the sorted (index, entry) array of the resolution loop; for each
entry with a truthy `start` and a falsy `end` for `step`, record the update
`end := start of the next array element with a truthy start for step`. -/
def collectUpdates (step : String) : List (Nat × Entry) → List (Nat × Int)
  | [] => []
  | (i, e) :: rest =>
    let tail := collectUpdates step rest
    if truthyN ((e.get step).bind (fun iv => iv.start?))
        && !truthyN ((e.get step).bind (fun iv => iv.stop?)) then
      match rest.find? (fun p => truthyN ((p.2.get step).bind (fun iv => iv.start?))) with
      | some p => (i, ((p.2.get step).bind (fun iv => iv.start?)).getD 0) :: tail
      | none => tail
    else tail

/-- One pass of the open-interval resolution loop for `step`: sort a copy of
the entry array by the step's start, compute the end-updates in sorted order,
and apply them to the entries in place (the array order is unchanged; the
entry objects are mutated). -/
def resolveStep (step : String) (times : List Entry) : List Entry :=
  let sorted := stableSort (fun a b => entryStepLt step a.2 b.2) (idxFrom 0 times)
  let upds := collectUpdates step sorted
  (idxFrom 0 times).map (fun p =>
    match upds.lookup p.1 with
    | some v => p.2.setStopTime step v
    | none => p.2)

/-- One element of the report's `durations` array. -/
structure EntryDurations where
  id? : Option Int
  perStep : List (String × Int)
  queued? : Option Int
  end2end? : Option Int
deriving DecidableEq, Repr

/-- The report returned by `computeStats`: `all` is the (mutated) entry array
itself, `durations` the per-entry rounded durations, `stats` the per-step
reports plus the `queued` entry and, when both an initial and a final step
are designated, the `end2end` entry. -/
structure Report where
  all : List Entry
  durations : List EntryDurations
  stats : List (String × StatsReport)
deriving DecidableEq, Repr

def statsKeyQueued : String := "queued"

def statsKeyEnd2End : String := "end2end"

/-- The per-step value in a `durations` element: `end - start` when both are
truthy, else `0`. -/
def perStepDuration (e : Entry) (st : String) : Int :=
  let s := (e.get st).bind (fun iv => iv.start?)
  let f := (e.get st).bind (fun iv => iv.stop?)
  if truthyN f && truthyN s then f.getD 0 - s.getD 0 else 0

/-- `computeStats()`: resolve open intervals for every step (mutating the
stored entries), then build the report.  The method's effect on the private
`#times` array is modelled by returning the updated store next to the report;
`Report.all` is that same updated entry list, as in the source. -/
def computeStats (db : StepTimesDB) : Report × StepTimesDB :=
  let steps := collectSteps db.times
  let times1 := steps.foldl (fun ts st => resolveStep st ts) db.times
  let durations := times1.map (fun e =>
    ({ id? := e.id?,
       perStep := steps.map (fun st => (st, perStepDuration e st)),
       queued? := computeQueuedDuration db.finalStep e,
       end2end? :=
         match db.initialStep, db.finalStep with
         | some i, some f =>
           match (e.get f).bind (fun iv => iv.stop?), (e.get i).bind (fun iv => iv.start?) with
           | some fe, some ss => some (fe - ss)
           | _, _ => none
         | _, _ => none } : EntryDurations))
  let stats0 := steps.map (fun st => (st, computeDurationStats (getDurations times1 st st)))
  let stats1 := stats0 ++ [(statsKeyQueued, computeDurationStats (queuedDurationsOf db.finalStep times1))]
  let stats2 :=
    match db.initialStep, db.finalStep with
    | some i, some f => stats1 ++ [(statsKeyEnd2End, computeDurationStats (getDurations times1 i f))]
    | _, _ => stats1
  ({ all := times1, durations := durations, stats := stats2 }, { db with times := times1 })

end StepTimesDB

namespace InstrumentedTransformStream

/-- One observable action of a wrapped transform body, from the point of view
of the timing instrumentation:
- `work d`: computation inside the transform taking `d` time units;
- `emit d`: a call to `controller.enqueue`, which synchronously triggers the
  downstream consumer for `d` time units before control returns;
- `setEnd`: a call to `this.setEndTime(chunk.timestamp)`;
- `err`: the transform throws (rejects); the remaining actions never run. -/
inductive Op where
  | work (d : Nat)
  | emit (d : Nat)
  | setEnd
  | err
deriving DecidableEq, Repr

/-- State of one instrumented transform invocation for a given chunk: the
current clock, the recorded `end` of the interval for `(chunk, timerName)`
(its `start` is the initial clock), whether the transform errored, and the
clock value at the moment of the first `controller.enqueue` call (observation
used to state the claims; the source records nothing at that moment). -/
structure TState where
  clock : Int
  stop? : Option Int
  errored : Bool
  firstEmit? : Option Int
deriving DecidableEq, Repr

/-- Run the transform body. -/
def runOps : List Op → TState → TState
  | [], s => s
  | op :: rest, s =>
    if s.errored then s
    else
      match op with
      | .work d => runOps rest { s with clock := s.clock + d }
      | .emit d => runOps rest
          { s with
            clock := s.clock + d
            firstEmit? := match s.firstEmit? with
              | some t => some t
              | none => some s.clock }
      | .setEnd => runOps rest { s with stop? := some s.clock }
      | .err => { s with errored := true }

/-- The instrumented `transform` wrapper: record `start = now()` (the initial
clock `t0`), await the wrapped transform, and if it returned normally and the
recorded `end` is still falsy, set `end = now()`.  A thrown error propagates
before the end-setting statement is reached. -/
def instrumentedTransform (ops : List Op) (t0 : Int) : TState :=
  let s := runOps ops { clock := t0, stop? := none, errored := false, firstEmit? := none }
  if s.errored then s
  else if truthyN s.stop? then s
  else { s with stop? := some s.clock }

/-- Total time units consumed by a body (its own work plus downstream work
triggered by its emissions). -/
def workTime : List Op → Int
  | [] => 0
  | .work d :: rest => (d : Int) + workTime rest
  | .emit d :: rest => (d : Int) + workTime rest
  | .setEnd :: rest => workTime rest
  | .err :: rest => workTime rest

def hasErr : List Op → Bool
  | [] => false
  | op :: rest => (op == Op.err) || hasErr rest

def hasSetEnd : List Op → Bool
  | [] => false
  | op :: rest => (op == Op.setEnd) || hasSetEnd rest

def isEmit : Op → Bool
  | .emit _ => true
  | .work _ => false
  | .setEnd => false
  | .err => false

def hasEmit : List Op → Bool
  | [] => false
  | op :: rest => isEmit op || hasEmit rest

end InstrumentedTransformStream

open StepTimesDB

/-! Step names and concrete inputs used by the claims. -/

def stepX : String := "X"

def stepDisplay : String := "display"

def stepProc : String := "proc"

def stepA : String := "a"

def stepB : String := "b"

def stepF : String := "f"

/-- The database of the C5 statistics round-trip scenario: identifiers 1, 2, 3,
single stage "X" with intervals {0,10}, {10,25}, {30,33}. -/
def dbC5 : StepTimesDB :=
  { initialStep := none, finalStep := none, times := [ { id? := some 1, steps := [(stepX, { start? := some 0, stop? := some 10 })] },
               { id? := some 2, steps := [(stepX, { start? := some 10, stop? := some 25 })] },
               { id? := some 3, steps := [(stepX, { start? := some 30, stop? := some 33 })] } ] }

/-- The database of the C4 open-interval resolution scenario: a display series
with start values 100, 140, 190 and no end values. -/
def dbC4s : StepTimesDB :=
  { initialStep := none, finalStep := none, times := [ { id? := some 1, steps := [(stepDisplay, { start? := some 100, stop? := none })] },
               { id? := some 2, steps := [(stepDisplay, { start? := some 140, stop? := none })] },
               { id? := some 3, steps := [(stepDisplay, { start? := some 190, stop? := none })] } ] }

/-- A display series whose first entry has the legitimate start timestamp 0. -/
def dbC4z : StepTimesDB :=
  { initialStep := none, finalStep := none, times := [ { id? := some 1, steps := [(stepDisplay, { start? := some 0, stop? := none })] },
               { id? := some 2, steps := [(stepDisplay, { start? := some 40, stop? := none })] } ] }

/-- A two-entry series on the undesignated step "proc" with open intervals. -/
def dbC9 : StepTimesDB :=
  { initialStep := none, finalStep := none, times := [ { id? := some 1, steps := [(stepProc, { start? := some 100, stop? := none })] },
               { id? := some 2, steps := [(stepProc, { start? := some 140, stop? := none })] } ] }

/-- Entry with a step "a" = {1,2} and a final step "f" = {10,20}: the interval
of "f" starts at the final time 10 but ends after it. -/
def eC6 : Entry :=
  { id? := some 1, steps := [(stepA, { start? := some 1, stop? := some 2 }),
                             (stepF, { start? := some 10, stop? := some 20 })] }

/-- Entry with two gaps before the final step "f". -/
def eC6w : Entry :=
  { id? := some 1, steps := [(stepA, { start? := some 1, stop? := some 2 }),
                             (stepB, { start? := some 4, stop? := some 6 }),
                             (stepF, { start? := some 10, stop? := some 12 })] }

def dbEmpty : StepTimesDB := { initialStep := none, finalStep := none, times := [] }

/-- First recorded value for (identifier 1, stage X). -/
def e7a : Entry := { id? := some 1, steps := [(stepX, { start? := some 0, stop? := some 10 })] }

/-- Conflicting value for the same (identifier 1, stage X). -/
def e7b : Entry := { id? := some 1, steps := [(stepX, { start? := some 5, stop? := some 7 })] }

/-- An entry carrying the legitimate numeric identifier 0. -/
def eId0 : Entry := { id? := some 0, steps := [(stepX, { start? := some 1, stop? := some 2 })] }

/-- A store with one unrelated entry, used to observe that `addEntry` leaves
the store unchanged on falsy identifiers. -/
def dbC10 : StepTimesDB :=
  { initialStep := none, finalStep := none, times := [ { id? := some 5, steps := [(stepX, { start? := some 3, stop? := some 4 })] } ] }

/-- Unified store contents for the C8 witness. -/
def dbC8U : StepTimesDB :=
  { initialStep := none, finalStep := none, times := [ { id? := some 9, steps := [(stepA, { start? := some 1, stop? := some 2 })] } ] }

/-- Snapshot merged twice in the C8 witness. -/
def snapC8 : List Entry :=
  [ { id? := some 9, steps := [(stepB, { start? := some 3, stop? := some 4 })] },
    { id? := some 10, steps := [(stepB, { start? := some 5, stop? := some 6 })] } ]

/-! Series helpers for the open-interval resolution claims (C4, C9). -/

/-- An entry of a series on stage `st`: identifier `p.1`, open interval
starting at `p.2`. -/
def mkOpen (st : String) (p : Int × Int) : Entry :=
  { id? := some p.1, steps := [(st, { start? := some p.2, stop? := none })] }

/-- The start recorded for `st` on an entry, defaulting to 0. -/
def keyStart (st : String) (e : Entry) : Int :=
  ((e.get st).bind (fun iv => iv.start?)).getD 0

/-- The expected resolved entry: the end becomes the smallest strictly larger
start of the series (the "next" entry in sorted order), or stays open. -/
def resolvedEntry (st : String) (starts : List Int) (p : Int × Int) : Entry :=
  { id? := some p.1, steps := [(st, { start? := some p.2, stop? := nextStart? starts p.2 })] }

/-- The update list produced by the resolution walk on a fully open series:
each element is keyed by the array index and carries the next element's start. -/
def nextPairs (st : String) : List (Nat × Entry) → List (Nat × Int)
  | a :: b :: rest => (a.1, keyStart st b.2) :: nextPairs st (b :: rest)
  | _ => []

/-! Specification-side formulations of the queued-duration rule (C6). -/

/-- The comparator of `computeQueuedDuration` restricted to intervals. -/
def ivLt (a b : Interval) : Bool :=
  match a.start?, b.start? with
  | some s1, some s2 =>
    if s1 = s2 then
      match a.stop?, b.stop? with
      | some e1, some e2 => decide (e1 < e2)
      | _, _ => false
    else decide (s1 < s2)
  | _, _ => false

/-- Sum of the gaps between consecutive intervals. -/
def gapSumIv : List Interval → Int
  | [] => 0
  | [_] => 0
  | a :: b :: rest => (b.start?.getD 0 - a.stop?.getD 0) + gapSumIv (b :: rest)

/-- Modelled from claim C6's own words: collect the entry's intervals,
excluding any interval that ENDS after the final stage's start; if any
interval of that relevant set is unresolved the result is unavailable; else
sort by start (ties by end) and sum the gaps between consecutive intervals. -/
def queuedDurationClaimRule (finalStart : Int) (e : Entry) : Option Int :=
  let relevant := (e.steps.map (fun kv => kv.2)).filter (fun iv =>
    !(match iv.stop? with
      | some v => decide (finalStart < v)
      | none => false))
  if relevant.any (fun iv => !(iv.start?.isSome && iv.stop?.isSome)) then none
  else some (gapSumIv (stableSort ivLt relevant))

/-- The amended claim's rule: collect the entry's intervals that START no
later than the final stage's start; a kept interval with a falsy start or end
makes the result unavailable; else sort by start (ties by end) and sum the
gaps between consecutive intervals. -/
def queuedDurationSpec (finalStart : Int) (e : Entry) : Option Int :=
  let relevant := (e.steps.map (fun kv => kv.2)).filter (fun iv =>
    match iv.start? with
    | some s => decide (s ≤ finalStart)
    | none => false)
  if relevant.any (fun iv => !truthyN iv.start? || !truthyN iv.stop?) then none
  else some (gapSumIv (stableSort ivLt relevant))

/-! Generic lemmas about the JS-sort model and the auxiliary functions. -/

theorem stableInsert_perm (lt : α → α → Bool) (x : α) (l : List α) :
    (stableInsert lt x l).Perm (x :: l) := by
  induction l with
  | nil => simp [stableInsert]
  | cons y ys ih =>
    rw [stableInsert]
    by_cases h : lt y x
    · rw [if_pos h]
      exact (ih.cons y).trans (List.Perm.swap x y ys)
    · rw [if_neg h]

theorem stableSort_perm (lt : α → α → Bool) (l : List α) :
    (stableSort lt l).Perm l := by
  induction l with
  | nil => simp [stableSort]
  | cons x xs ih => exact (stableInsert_perm lt x _).trans (ih.cons x)

theorem stableInsert_pairwise (key : α → Int) (lt : α → α → Bool) (x : α) (l : List α)
    (hx : ∀ y ∈ l, lt y x = decide (key y < key x))
    (hl : l.Pairwise (fun a b => key a ≤ key b)) :
    (stableInsert lt x l).Pairwise (fun a b => key a ≤ key b) := by
  induction l with
  | nil => simp [stableInsert]
  | cons y ys ih =>
    rw [List.pairwise_cons] at hl
    obtain ⟨hy, hys⟩ := hl
    rw [stableInsert]
    by_cases h : lt y x
    · rw [if_pos h]
      have hk : key y < key x := by
        have hagree := hx y (by simp)
        rw [hagree] at h
        exact of_decide_eq_true h
      refine List.pairwise_cons.mpr ⟨?_, ih (fun z hz => hx z (by simp [hz])) hys⟩
      intro z hz
      have hz' : z = x ∨ z ∈ ys := by
        have hmem := (stableInsert_perm lt x ys).mem_iff.mp hz
        simpa using hmem
      rcases hz' with rfl | hzys
      · exact le_of_lt hk
      · exact hy z hzys
    · rw [if_neg h]
      have hk : key x ≤ key y := by
        have hagree := hx y (by simp)
        rw [hagree] at h
        exact le_of_not_lt (by simpa using h)
      refine List.pairwise_cons.mpr ⟨?_, List.pairwise_cons.mpr ⟨hy, hys⟩⟩
      intro z hz
      rcases List.mem_cons.mp hz with rfl | hzys
      · exact hk
      · exact hk.trans (hy z hzys)

theorem stableSort_pairwise (key : α → Int) (lt : α → α → Bool) (l : List α)
    (hagree : ∀ a ∈ l, ∀ b ∈ l, lt a b = decide (key a < key b)) :
    (stableSort lt l).Pairwise (fun a b => key a ≤ key b) := by
  induction l with
  | nil => simp [stableSort]
  | cons x xs ih =>
    rw [stableSort]
    apply stableInsert_pairwise
    · intro y hy
      have hy' : y ∈ xs := (stableSort_perm lt xs).mem_iff.mp hy
      exact hagree y (by simp [hy']) x (by simp)
    · exact ih (fun a ha b hb => hagree a (by simp [ha]) b (by simp [hb]))

theorem minAux_mem : ∀ {l : List Int} {m : Int}, minAux l = some m → m ∈ l := by
  intro l
  induction l with
  | nil => intro m h; simp [minAux] at h
  | cons x xs ih =>
    intro m h
    rw [minAux] at h
    cases hm : minAux xs with
    | none => rw [hm] at h; simp at h; simp [h]
    | some k =>
      rw [hm] at h
      simp at h
      rcases min_cases x k with ⟨heq, _⟩ | ⟨heq, _⟩
      · simp [← h, heq]
      · have := ih hm
        simp [← h, heq, this]

theorem minAux_cons_of_le (v : Int) (l : List Int) (h : ∀ u ∈ l, v ≤ u) :
    minAux (v :: l) = some v := by
  cases hm : minAux l with
  | none => simp [minAux, hm]
  | some m =>
    have := h m (minAux_mem hm)
    simp [minAux, hm, min_eq_left this]

theorem minAux_perm {l1 l2 : List Int} (h : l1.Perm l2) : minAux l1 = minAux l2 := by
  induction h with
  | nil => rfl
  | cons x _ ih => simp [minAux, ih]
  | swap x y l =>
    cases hm : minAux l with
    | none => simp [minAux, hm, min_comm]
    | some m => simp [minAux, hm, min_left_comm]
  | trans _ _ ih1 ih2 => exact ih1.trans ih2

/-! Lemmas about the instrumented transform wrapper. -/

namespace InstrumentedTransformStream

theorem runOps_fix (l : List Op) (s : TState) (h : s.errored = true) : runOps l s = s := by
  cases l with
  | nil => rfl
  | cons op rest => simp [runOps, h]

theorem runOps_append (l1 l2 : List Op) (s : TState) :
    runOps (l1 ++ l2) s = runOps l2 (runOps l1 s) := by
  induction l1 generalizing s with
  | nil => rfl
  | cons op rest ih =>
    by_cases h : s.errored
    · rw [runOps_fix _ _ h, runOps_fix _ _ h, runOps_fix _ _ h]
    · have h' : s.errored = false := by simpa using h
      cases op with
      | work d => simp only [List.cons_append, runOps, h', Bool.false_eq_true, if_false]; exact ih _
      | emit d => simp only [List.cons_append, runOps, h', Bool.false_eq_true, if_false]; exact ih _
      | setEnd => simp only [List.cons_append, runOps, h', Bool.false_eq_true, if_false]; exact ih _
      | err =>
        simp only [List.cons_append, runOps, h', Bool.false_eq_true, if_false]
        exact (runOps_fix l2 _ (by simp)).symm

theorem hasErr_cons {op : Op} {rest : List Op} (h : hasErr (op :: rest) = false) :
    (op == Op.err) = false ∧ hasErr rest = false := by
  rw [hasErr] at h
  exact Bool.or_eq_false_iff.mp h

theorem hasSetEnd_cons {op : Op} {rest : List Op} (h : hasSetEnd (op :: rest) = false) :
    (op == Op.setEnd) = false ∧ hasSetEnd rest = false := by
  rw [hasSetEnd] at h
  exact Bool.or_eq_false_iff.mp h

theorem hasEmit_cons {op : Op} {rest : List Op} (h : hasEmit (op :: rest) = false) :
    isEmit op = false ∧ hasEmit rest = false := by
  rw [hasEmit] at h
  exact Bool.or_eq_false_iff.mp h

theorem workTime_nonneg (l : List Op) : 0 ≤ workTime l := by
  induction l with
  | nil => simp [workTime]
  | cons op rest ih =>
    cases op with
    | work d => rw [workTime]; positivity
    | emit d => rw [workTime]; positivity
    | setEnd => rw [workTime]; exact ih
    | err => rw [workTime]; exact ih

theorem runOps_noerr (l : List Op) (s : TState) (hs : s.errored = false)
    (hl : hasErr l = false) : (runOps l s).errored = false := by
  induction l generalizing s with
  | nil => simpa [runOps] using hs
  | cons op rest ih =>
    obtain ⟨hop, hrest⟩ := hasErr_cons hl
    cases op with
    | work d => simp only [runOps, hs, Bool.false_eq_true, if_false]; exact ih _ rfl hrest
    | emit d => simp only [runOps, hs, Bool.false_eq_true, if_false]; exact ih _ rfl hrest
    | setEnd => simp only [runOps, hs, Bool.false_eq_true, if_false]; exact ih _ rfl hrest
    | err => simp [Op.err] at hop

theorem runOps_clock (l : List Op) (s : TState) (hs : s.errored = false)
    (hl : hasErr l = false) : (runOps l s).clock = s.clock + workTime l := by
  induction l generalizing s with
  | nil => simp [runOps, workTime]
  | cons op rest ih =>
    obtain ⟨hop, hrest⟩ := hasErr_cons hl
    cases op with
    | work d =>
      simp only [runOps, hs, Bool.false_eq_true, if_false]
      rw [ih _ rfl hrest, workTime]
      simp; ring
    | emit d =>
      simp only [runOps, hs, Bool.false_eq_true, if_false]
      rw [ih _ rfl hrest, workTime]
      simp; ring
    | setEnd =>
      simp only [runOps, hs, Bool.false_eq_true, if_false]
      rw [ih _ rfl hrest, workTime]
    | err => simp [Op.err] at hop

theorem runOps_stop (l : List Op) (s : TState) (hl : hasSetEnd l = false) :
    (runOps l s).stop? = s.stop? := by
  induction l generalizing s with
  | nil => rfl
  | cons op rest ih =>
    by_cases hs : s.errored
    · rw [runOps_fix _ _ hs]
    · have hs' : s.errored = false := by simpa using hs
      obtain ⟨hop, hrest⟩ := hasSetEnd_cons hl
      cases op with
      | work d => simp only [runOps, hs', Bool.false_eq_true, if_false]; exact ih _ hrest
      | emit d => simp only [runOps, hs', Bool.false_eq_true, if_false]; exact ih _ hrest
      | setEnd => simp [Op.setEnd] at hop
      | err => simp only [runOps, hs', Bool.false_eq_true, if_false]

theorem runOps_firstEmit_some (l : List Op) (s : TState) (t : Int)
    (h : s.firstEmit? = some t) : (runOps l s).firstEmit? = some t := by
  induction l generalizing s with
  | nil => simpa [runOps] using h
  | cons op rest ih =>
    by_cases hs : s.errored
    · rw [runOps_fix _ _ hs]; exact h
    · have hs' : s.errored = false := by simpa using hs
      cases op with
      | work d => simp only [runOps, hs', Bool.false_eq_true, if_false]; exact ih _ h
      | emit d =>
        simp only [runOps, hs', Bool.false_eq_true, if_false, h]
        exact ih _ (by simp)
      | setEnd => simp only [runOps, hs', Bool.false_eq_true, if_false]; exact ih _ h
      | err => simp only [runOps, hs', Bool.false_eq_true, if_false]; exact h

theorem runOps_firstEmit_none (l : List Op) (s : TState) (h : hasEmit l = false) :
    (runOps l s).firstEmit? = s.firstEmit? := by
  induction l generalizing s with
  | nil => rfl
  | cons op rest ih =>
    by_cases hs : s.errored
    · rw [runOps_fix _ _ hs]
    · have hs' : s.errored = false := by simpa using hs
      obtain ⟨hop, hrest⟩ := hasEmit_cons h
      cases op with
      | work d => simp only [runOps, hs', Bool.false_eq_true, if_false]; exact ih _ hrest
      | emit d => simp [isEmit] at hop
      | setEnd => simp only [runOps, hs', Bool.false_eq_true, if_false]; exact ih _ hrest
      | err => simp only [runOps, hs', Bool.false_eq_true, if_false]

theorem instrumented_firstEmit (ops : List Op) (t0 : Int) :
    (instrumentedTransform ops t0).firstEmit?
      = (runOps ops { clock := t0, stop? := none, errored := false, firstEmit? := none }).firstEmit? := by
  simp only [instrumentedTransform]
  split
  · rfl
  · split
    · rfl
    · rfl

/-- State reached after running a body of the form `l1 ++ setEnd :: l2` where
`l2` neither errors nor sets the end again: the explicitly recorded end
`t0 + workTime l1` survives both `l2` and the automatic end-setting path. -/
theorem instrumented_setEnd_shape (l1 l2 : List Op) (t0 : Int) (ht : 0 < t0)
    (h1 : hasErr l1 = false) (h2 : hasErr l2 = false) (h3 : hasSetEnd l2 = false) :
    instrumentedTransform (l1 ++ Op.setEnd :: l2) t0
      = runOps (l1 ++ Op.setEnd :: l2)
          { clock := t0, stop? := none, errored := false, firstEmit? := none }
    ∧ (instrumentedTransform (l1 ++ Op.setEnd :: l2) t0).stop? = some (t0 + workTime l1)
    ∧ (instrumentedTransform (l1 ++ Op.setEnd :: l2) t0).clock
        = t0 + workTime l1 + workTime l2 := by
  have hW := workTime_nonneg l1
  have hsplit := runOps_append l1 (Op.setEnd :: l2)
      { clock := t0, stop? := none, errored := false, firstEmit? := none }
  generalize hs1 : runOps l1
      { clock := t0, stop? := none, errored := false, firstEmit? := none } = s1 at hsplit
  have e1 : s1.errored = false := by rw [← hs1]; exact runOps_noerr _ _ rfl h1
  have c1 : s1.clock = t0 + workTime l1 := by rw [← hs1]; exact runOps_clock _ _ rfl h1
  have step : runOps (Op.setEnd :: l2) s1
      = runOps l2 { clock := s1.clock, stop? := some s1.clock, errored := false,
                    firstEmit? := s1.firstEmit? } := by
    simp only [runOps, e1, Bool.false_eq_true, if_false]
  rw [step] at hsplit
  have e4 : (runOps l2 { clock := s1.clock, stop? := some s1.clock, errored := false, firstEmit? := s1.firstEmit? }).errored = false := runOps_noerr _ _ rfl h2
  have st4 : (runOps l2 { clock := s1.clock, stop? := some s1.clock, errored := false, firstEmit? := s1.firstEmit? }).stop? = some s1.clock := by
    rw [runOps_stop _ _ h3]
  have cl4 : (runOps l2 { clock := s1.clock, stop? := some s1.clock, errored := false, firstEmit? := s1.firstEmit? }).clock = s1.clock + workTime l2 := by
    rw [runOps_clock _ _ rfl h2]
  have htr : truthyN (runOps l2 { clock := s1.clock, stop? := some s1.clock, errored := false, firstEmit? := s1.firstEmit? }).stop? = true := by
    rw [st4]
    simp only [truthyN, c1]
    simp only [bne_iff_ne, ne_eq]
    omega
  have hinstr : instrumentedTransform (l1 ++ Op.setEnd :: l2) t0
      = runOps l2 { clock := s1.clock, stop? := some s1.clock, errored := false, firstEmit? := s1.firstEmit? } := by
    simp only [instrumentedTransform, hsplit, e4, Bool.false_eq_true, if_false, htr, if_true]
  refine ⟨by rw [hinstr, hsplit], ?_, ?_⟩
  · rw [hinstr, st4, c1]
  · rw [hinstr, cl4, c1]

/-- State reached by a body that neither errors nor calls setEndTime: the
automatic path records the end when the whole transform (and the downstream
work triggered by its emissions) has finished. -/
theorem instrumented_auto_shape (ops : List Op) (t0 : Int)
    (h1 : hasErr ops = false) (h2 : hasSetEnd ops = false) :
    (instrumentedTransform ops t0).stop? = some (t0 + workTime ops) ∧
    (instrumentedTransform ops t0).clock = t0 + workTime ops := by
  have e4 : (runOps ops { clock := t0, stop? := none, errored := false, firstEmit? := none }).errored = false := runOps_noerr _ _ rfl h1
  have st4 : (runOps ops { clock := t0, stop? := none, errored := false, firstEmit? := none }).stop? = none := by rw [runOps_stop _ _ h2]
  have cl4 : (runOps ops { clock := t0, stop? := none, errored := false, firstEmit? := none }).clock = t0 + workTime ops := by
    rw [runOps_clock _ _ rfl h1]
  constructor
  · simp [instrumentedTransform, e4, st4, cl4, truthyN]
  · simp [instrumentedTransform, e4, st4, cl4, truthyN]

/-- State reached by a body that throws after a prefix that never set the end:
the wrapper propagates the error and the end-setting statement never runs. -/
theorem instrumented_err_shape (l1 l2 : List Op) (t0 : Int)
    (h1 : hasErr l1 = false) (h2 : hasSetEnd l1 = false) :
    (instrumentedTransform (l1 ++ Op.err :: l2) t0).errored = true ∧
    (instrumentedTransform (l1 ++ Op.err :: l2) t0).stop? = none := by
  have hsplit := runOps_append l1 (Op.err :: l2)
      { clock := t0, stop? := none, errored := false, firstEmit? := none }
  generalize hs1 : runOps l1
      { clock := t0, stop? := none, errored := false, firstEmit? := none } = s1 at hsplit
  have e1 : s1.errored = false := by rw [← hs1]; exact runOps_noerr _ _ rfl h1
  have st1 : s1.stop? = none := by rw [← hs1]; exact runOps_stop _ _ h2
  have step : runOps (Op.err :: l2) s1 = { s1 with errored := true } := by
    simp only [runOps, e1, Bool.false_eq_true, if_false]
  rw [step] at hsplit
  constructor
  · simp only [instrumentedTransform, hsplit]; rfl
  · simp only [instrumentedTransform, hsplit]
    simp [st1]

end InstrumentedTransformStream

open InstrumentedTransformStream

/-- C1, counterexample: the pass-through transform substituted by the
constructor when no transform is given is `[Op.emit 5]` (a single enqueue that
triggers 5 time units of downstream work).  Starting at clock 1, the first
emission happens at clock 1, yet the recorded end is 6 — taken after the
transform function and the downstream consumer finished — so the recorded
duration 6 - 1 = 5 differs from the claimed start-to-first-emission time
1 - 1 = 0. -/
theorem c1_counterexample :
    (instrumentedTransform [Op.emit 5] 1).firstEmit? = some 1 ∧
    (instrumentedTransform [Op.emit 5] 1).stop? = some 6 ∧
    (6 : Int) - 1 ≠ 1 - 1 := by decide

/-- C1, amended: the recorded end coincides with the moment of the first
emission only for a transform that explicitly calls `setEndTime` immediately
before its first `enqueue`, as the jitter "input" stage does (body
`pre ++ setEnd :: emit d :: post`): its recorded end and its first-emission
time both equal `t0 + workTime pre`, unaffected by the downstream delay `d`.
For a transform that never calls `setEndTime`, the end is recorded only after
the transform function and all downstream work have finished
(`t0 + workTime ops`). -/
theorem c1_amended :
    (∀ (pre post : List Op) (d : Nat) (t0 : Int),
        0 < t0 → hasErr pre = false → hasEmit pre = false →
        hasErr post = false → hasSetEnd post = false →
        (instrumentedTransform (pre ++ Op.setEnd :: Op.emit d :: post) t0).stop?
            = some (t0 + workTime pre) ∧
        (instrumentedTransform (pre ++ Op.setEnd :: Op.emit d :: post) t0).firstEmit?
            = some (t0 + workTime pre)) ∧
    (∀ (ops : List Op) (t0 : Int),
        hasErr ops = false → hasSetEnd ops = false →
        (instrumentedTransform ops t0).stop? = some (t0 + workTime ops)) := by
  constructor
  · intro pre post d t0 ht hpre1 hpre2 hpost1 hpost2
    have h2 : hasErr (Op.emit d :: post) = false := by
      rw [hasErr]; simp [hpost1]
    have h3 : hasSetEnd (Op.emit d :: post) = false := by
      rw [hasSetEnd]; simp [hpost2]
    obtain ⟨-, hstop, -⟩ := instrumented_setEnd_shape pre (Op.emit d :: post) t0 ht hpre1 h2 h3
    refine ⟨hstop, ?_⟩
    rw [instrumented_firstEmit]
    have hsplit := runOps_append pre (Op.setEnd :: Op.emit d :: post)
        { clock := t0, stop? := none, errored := false, firstEmit? := none }
    generalize hs1 : runOps pre
        { clock := t0, stop? := none, errored := false, firstEmit? := none } = s1 at hsplit
    have e1 : s1.errored = false := by rw [← hs1]; exact runOps_noerr _ _ rfl hpre1
    have c1 : s1.clock = t0 + workTime pre := by rw [← hs1]; exact runOps_clock _ _ rfl hpre1
    have f1 : s1.firstEmit? = none := by rw [← hs1]; exact runOps_firstEmit_none _ _ hpre2
    have step : runOps (Op.setEnd :: Op.emit d :: post) s1
        = runOps post { clock := s1.clock + (d : Int), stop? := some s1.clock, errored := false,
                        firstEmit? := some s1.clock } := by
      simp only [runOps, e1, Bool.false_eq_true, if_false, f1]
    rw [step] at hsplit
    rw [hsplit, runOps_firstEmit_some post _ s1.clock rfl, c1]
  · intro ops t0 h1 h2
    exact (instrumented_auto_shape ops t0 h1 h2).1

/-- C1, witness: the jitter input-stage body `[setEnd, emit 5]` starting at
clock 1 records end 1 (its first-emission time), while the plain body
`[work 3]` records end `1 + 3`. -/
theorem c1_witness :
    ((instrumentedTransform ([] ++ Op.setEnd :: Op.emit 5 :: []) 1).stop?
        = some (1 + workTime []) ∧
     (instrumentedTransform ([] ++ Op.setEnd :: Op.emit 5 :: []) 1).firstEmit?
        = some (1 + workTime [])) ∧
    (instrumentedTransform [Op.work 3] 1).stop? = some (1 + workTime [Op.work 3]) :=
  ⟨c1_amended.1 [] [] 5 1 (by decide) (by decide) (by decide) (by decide) (by decide),
   c1_amended.2 [Op.work 3] 1 (by decide) (by decide)⟩

/-- C2, counterexample: a transform that throws (`[Op.err]`) leaves the
interval open — the recorded end is `none` although a start was recorded —
because the end-setting statement sits after the `await` with no try/finally. -/
theorem c2_counterexample :
    (instrumentedTransform [Op.err] 5).errored = true ∧
    (instrumentedTransform [Op.err] 5).stop? = none := by decide

/-- C2, amended: when the wrapped transform completes normally the interval is
always closed, even when it never emits; but when the transform throws, the
error propagates and the interval for the item keeps only its start (no end),
unless the transform itself had called `setEndTime` before throwing. -/
theorem c2_amended :
    (∀ (ops : List Op) (t0 : Int), hasErr ops = false →
        (instrumentedTransform ops t0).stop?.isSome = true) ∧
    (∀ (l1 l2 : List Op) (t0 : Int), hasErr l1 = false → hasSetEnd l1 = false →
        (instrumentedTransform (l1 ++ Op.err :: l2) t0).errored = true ∧
        (instrumentedTransform (l1 ++ Op.err :: l2) t0).stop? = none) := by
  constructor
  · intro ops t0 h1
    have e4 : (runOps ops { clock := t0, stop? := none, errored := false, firstEmit? := none }).errored = false := runOps_noerr _ _ rfl h1
    simp only [instrumentedTransform, e4, Bool.false_eq_true, if_false]
    split
    · rename_i htr
      cases hs : (runOps ops { clock := t0, stop? := none, errored := false, firstEmit? := none }).stop? with
      | none => rw [hs] at htr; simp [truthyN] at htr
      | some v => rfl
    · rfl
  · intro l1 l2 t0 h1 h2
    exact instrumented_err_shape l1 l2 t0 h1 h2

/-- C2, witness: a non-emitting, non-erroring body has a closed interval; the
erroring body `[Op.err]` (as `[] ++ err :: []`) leaves it open. -/
theorem c2_witness :
    (instrumentedTransform [Op.work 2] 1).stop?.isSome = true ∧
    ((instrumentedTransform ([] ++ Op.err :: []) 7).errored = true ∧
     (instrumentedTransform ([] ++ Op.err :: []) 7).stop? = none) :=
  ⟨c2_amended.1 [Op.work 2] 1 (by decide),
   c2_amended.2 [] [] 7 (by decide) (by decide)⟩

/-- C3, counterexample: after `setEndTime` at clock 1 the transform keeps
working until clock 6; the automatic end-setting path does NOT overwrite
(`end` stays 1, not the completion time 6), so the automatic path is not
last-write-wins. -/
theorem c3_counterexample :
    (instrumentedTransform [Op.setEnd, Op.work 5] 1).clock = 6 ∧
    (instrumentedTransform [Op.setEnd, Op.work 5] 1).stop? = some 1 ∧
    some (instrumentedTransform [Op.setEnd, Op.work 5] 1).clock
      ≠ (instrumentedTransform [Op.setEnd, Op.work 5] 1).stop? := by decide

/-- C3, amended: among explicit `setEndTime` calls the last write wins — for a
body `l1 ++ setEnd :: l2` whose tail `l2` contains no further `setEndTime`,
the recorded end is the clock of that last call, `t0 + workTime l1` — and the
automatic path on transform completion only writes the end when it is not
already (truthily) set, so it never overwrites the explicitly recorded end
even though the transform completes later (at `t0 + workTime l1 + workTime l2`). -/
theorem c3_amended (l1 l2 : List Op) (t0 : Int) (ht : 0 < t0)
    (h1 : hasErr l1 = false) (h2 : hasErr l2 = false) (h3 : hasSetEnd l2 = false) :
    (instrumentedTransform (l1 ++ Op.setEnd :: l2) t0).stop? = some (t0 + workTime l1) ∧
    (instrumentedTransform (l1 ++ Op.setEnd :: l2) t0).clock
      = t0 + workTime l1 + workTime l2 := by
  obtain ⟨-, hstop, hclock⟩ := instrumented_setEnd_shape l1 l2 t0 ht h1 h2 h3
  exact ⟨hstop, hclock⟩

/-- C3, witness: the body `[setEnd, work 2] ++ setEnd :: [work 5]` records the
end of the LAST `setEndTime` call (clock 3) and completes at clock 8 without
the automatic path overwriting the recorded end. -/
theorem c3_witness :
    (instrumentedTransform ([Op.setEnd, Op.work 2] ++ Op.setEnd :: [Op.work 5]) 1).stop?
        = some (1 + workTime [Op.setEnd, Op.work 2]) ∧
    (instrumentedTransform ([Op.setEnd, Op.work 2] ++ Op.setEnd :: [Op.work 5]) 1).clock
        = 1 + workTime [Op.setEnd, Op.work 2] + workTime [Op.work 5] :=
  c3_amended [Op.setEnd, Op.work 2] [Op.work 5] 1 (by decide) (by decide) (by decide) (by decide)

/-! Lemmas about JS object property reads and writes, and Object.assign. -/

theorem getStep_cons (x : String × Interval) (l : List (String × Interval)) (k2 : String) :
    getStep (x :: l) k2 = if x.1 = k2 then some x.2 else getStep l k2 := by
  by_cases h : x.1 = k2
  · rw [getStep, List.find?_cons_of_pos _ (by simpa using h), if_pos h]; rfl
  · rw [getStep, List.find?_cons_of_neg _ (by simpa using h), if_neg h]; rfl

theorem getStep_setStep (l : List (String × Interval)) (k k2 : String) (v : Interval) :
    getStep (setStep l k v) k2 = if k2 = k then some v else getStep l k2 := by
  induction l with
  | nil =>
    rw [setStep, getStep_cons]
    by_cases h : k2 = k
    · rw [if_pos h.symm, if_pos h]
    · rw [if_neg (fun hc : k = k2 => h hc.symm), if_neg h]
  | cons kv rest ih =>
    by_cases hk : kv.1 = k
    · rw [setStep, if_pos (by simpa using hk), getStep_cons, getStep_cons]
      by_cases h2 : k2 = k
      · rw [if_pos h2.symm, if_pos h2]
      · rw [if_neg (fun hc => h2 hc.symm), if_neg h2,
          if_neg (fun hc => h2 (hc.symm.trans hk))]
    · rw [setStep, if_neg (by simpa using hk), getStep_cons, ih]
      by_cases hkv2 : kv.1 = k2
      · rw [if_pos hkv2, if_neg (fun hc => hk (hkv2.trans hc)), getStep_cons, if_pos hkv2]
      · rw [if_neg hkv2]
        by_cases h2 : k2 = k
        · rw [if_pos h2, if_pos h2]
        · rw [if_neg h2, if_neg h2, getStep_cons, if_neg hkv2]

theorem setStep_of_get (l : List (String × Interval)) (k : String) (v : Interval)
    (h : getStep l k = some v) : setStep l k v = l := by
  induction l with
  | nil => simp [getStep] at h
  | cons kv rest ih =>
    obtain ⟨k1, v1⟩ := kv
    rw [getStep_cons] at h
    by_cases hk : k1 = k
    · rw [if_pos hk] at h
      have hv : v1 = v := by simpa using h
      rw [setStep, if_pos (by simpa using hk)]
      rw [← hk, hv]
    · rw [if_neg hk] at h
      rw [setStep, if_neg (by simpa using hk), ih h]

theorem getStep_mem {l : List (String × Interval)} {k : String} {v : Interval}
    (h : getStep l k = some v) : (k, v) ∈ l := by
  rw [getStep] at h
  cases hf : l.find? (fun kv => kv.1 == k) with
  | none => rw [hf] at h; simp at h
  | some kv =>
    rw [hf] at h
    have hm := List.mem_of_find?_eq_some hf
    have hp := List.find?_some hf
    obtain ⟨a, b⟩ := kv
    have ha : a = k := by simpa using hp
    have hb : b = v := by simpa using h
    rw [← ha, ← hb]
    exact hm

theorem getStep_none_forall {l : List (String × Interval)} {k : String}
    (h : getStep l k = none) : ∀ kv ∈ l, kv.1 ≠ k := by
  intro kv hkv hc
  rw [getStep, Option.map_eq_none', List.find?_eq_none] at h
  exact h kv hkv (by simpa using hc)

theorem getStep_of_mem_nodup : ∀ (l : List (String × Interval)) {k : String} {v : Interval},
    (l.map Prod.fst).Nodup → (k, v) ∈ l → getStep l k = some v := by
  intro l
  induction l with
  | nil => intro k v _ hm; simp at hm
  | cons kv rest ih =>
    intro k v hnd hm
    rw [List.map_cons, List.nodup_cons] at hnd
    rw [getStep_cons]
    rcases List.mem_cons.mp hm with heq | hmr
    · have hk : kv.1 = k := by rw [← heq]
      have hv : kv.2 = v := by rw [← heq]
      rw [if_pos hk, hv]
    · by_cases hk : kv.1 = k
      · exfalso
        apply hnd.1
        rw [hk]
        exact List.mem_map.mpr ⟨(k, v), hmr, rfl⟩
      · rw [if_neg hk]
        exact ih hnd.2 hmr

theorem getStep_foldl_not_mem : ∀ (m : List (String × Interval))
    (acc : List (String × Interval)) (k : String),
    (∀ kv ∈ m, kv.1 ≠ k) →
    getStep (m.foldl (fun a kv => setStep a kv.1 kv.2) acc) k = getStep acc k := by
  intro m
  induction m with
  | nil => intro acc k _; rfl
  | cons kv rest ih =>
    intro acc k h
    rw [List.foldl_cons, ih _ k (fun x hx => h x (by simp [hx]))]
    rw [getStep_setStep, if_neg (fun hc => h kv (by simp) hc.symm)]

theorem getStep_foldl_mem : ∀ (m : List (String × Interval))
    (acc : List (String × Interval)) (k : String) (v : Interval),
    (m.map Prod.fst).Nodup → (k, v) ∈ m →
    getStep (m.foldl (fun a kv => setStep a kv.1 kv.2) acc) k = some v := by
  intro m
  induction m with
  | nil => intro acc k v _ hm; simp at hm
  | cons kv rest ih =>
    intro acc k v hnd hm
    rw [List.map_cons, List.nodup_cons] at hnd
    rw [List.foldl_cons]
    rcases List.mem_cons.mp hm with heq | hmr
    · have hk : kv.1 = k := by rw [← heq]
      have hv : kv.2 = v := by rw [← heq]
      have hnot : ∀ x ∈ rest, x.1 ≠ k := by
        intro x hx hc
        exact hnd.1 (List.mem_map.mpr ⟨x, hx, hc.trans hk.symm⟩)
      rw [getStep_foldl_not_mem rest _ k hnot, getStep_setStep, if_pos hk.symm, hv]
    · exact ih _ k v hnd.2 hmr

theorem foldl_setStep_id : ∀ (m : List (String × Interval)) (X : List (String × Interval)),
    (∀ kv ∈ m, getStep X kv.1 = some kv.2) →
    m.foldl (fun a kv => setStep a kv.1 kv.2) X = X := by
  intro m
  induction m with
  | nil => intro X _; rfl
  | cons kv rest ih =>
    intro X h
    rw [List.foldl_cons, setStep_of_get X kv.1 kv.2 (h kv (by simp))]
    exact ih X (fun x hx => h x (by simp [hx]))

theorem objAssign_id (base e : Entry) :
    (Entry.objAssign base e).id? = match e.id? with
      | some v => some v
      | none => base.id? := rfl

theorem objAssign_self (e : Entry) (hnd : (e.steps.map Prod.fst).Nodup) :
    Entry.objAssign e e = e := by
  have h1 : (Entry.objAssign e e).steps = e.steps :=
    foldl_setStep_id e.steps e.steps (fun kv hkv => getStep_of_mem_nodup e.steps hnd (by
      have : (kv.1, kv.2) = kv := rfl
      rw [this]; exact hkv))
  have h2 : (Entry.objAssign e e).id? = e.id? := by
    cases hi : e.id? <;> simp [Entry.objAssign, hi]
  calc Entry.objAssign e e
      = { id? := (Entry.objAssign e e).id?, steps := (Entry.objAssign e e).steps } := rfl
    _ = { id? := e.id?, steps := e.steps } := by rw [h1, h2]
    _ = e := rfl

theorem objAssign_absorb (x e : Entry) (hnd : (e.steps.map Prod.fst).Nodup) :
    Entry.objAssign (Entry.objAssign x e) e = Entry.objAssign x e := by
  have h1 : (Entry.objAssign (Entry.objAssign x e) e).steps = (Entry.objAssign x e).steps :=
    foldl_setStep_id e.steps _ (fun kv hkv => getStep_foldl_mem e.steps x.steps kv.1 kv.2 hnd (by
      have : (kv.1, kv.2) = kv := rfl
      rw [this]; exact hkv))
  have h2 : (Entry.objAssign (Entry.objAssign x e) e).id? = (Entry.objAssign x e).id? := by
    cases hi : e.id? <;> simp [Entry.objAssign, hi]
  calc Entry.objAssign (Entry.objAssign x e) e
      = { id? := (Entry.objAssign (Entry.objAssign x e) e).id?,
          steps := (Entry.objAssign (Entry.objAssign x e) e).steps } := rfl
    _ = { id? := (Entry.objAssign x e).id?, steps := (Entry.objAssign x e).steps } := by
        rw [h1, h2]
    _ = Entry.objAssign x e := rfl

theorem objAssign_get (base e : Entry) (k : String) (v : Interval)
    (hnd : (e.steps.map Prod.fst).Nodup) (h : e.get k = some v) :
    (Entry.objAssign base e).get k = some v :=
  getStep_foldl_mem e.steps base.steps k v hnd (getStep_mem h)

theorem insertEntry_absorb (W : List Entry) (e : Entry)
    (hnd : (e.steps.map Prod.fst).Nodup) :
    insertEntry (insertEntry W e) e = insertEntry W e := by
  induction W with
  | nil =>
    rw [insertEntry, insertEntry, if_pos (by simp), objAssign_self e hnd]
  | cons x xs ih =>
    by_cases h : (x.id? == e.id?) = true
    · rw [insertEntry, if_pos h]
      have hid : ((Entry.objAssign x e).id? == e.id?) = true := by
        cases he : e.id? with
        | some v => simp [Entry.objAssign, he]
        | none =>
          simp only [Entry.objAssign]
          rw [he]
          simpa [he] using h
      rw [insertEntry, if_pos hid, objAssign_absorb x e hnd]
    · rw [insertEntry, if_neg h, insertEntry, if_neg h, ih]

theorem insertEntry_preserve (e d : Entry) (hne : d.id? ≠ e.id?) :
    ∀ (W : List Entry), insertEntry W e = W →
    insertEntry (insertEntry W d) e = insertEntry W d := by
  intro W
  induction W with
  | nil =>
    intro habs
    rw [insertEntry] at habs
    exact absurd habs (by simp)
  | cons x xs ih =>
    intro habs
    by_cases hxe : (x.id? == e.id?) = true
    · rw [insertEntry, if_pos hxe] at habs
      have hax : Entry.objAssign x e = x := (List.cons.injEq _ _ _ _).mp habs |>.1
      have hxe' : x.id? = e.id? := by simpa using hxe
      have hxd : (x.id? == d.id?) = false := by
        rw [hxe']
        exact beq_eq_false_iff_ne.mpr (fun hc => hne hc.symm)
      rw [insertEntry, if_neg (by simp [hxd])]
      rw [insertEntry, if_pos hxe, hax]
    · rw [insertEntry, if_neg hxe] at habs
      have habs' : insertEntry xs e = xs := by
        have := (List.cons.injEq _ _ _ _).mp habs
        exact this.2
      by_cases hxd : (x.id? == d.id?) = true
      · rw [insertEntry, if_pos hxd]
        have hgood : ((Entry.objAssign x d).id? == e.id?) = false := by
          cases hd : d.id? with
          | some v =>
            simp only [Entry.objAssign]
            rw [hd]
            rw [hd] at hne
            exact beq_eq_false_iff_ne.mpr hne
          | none =>
            simp only [Entry.objAssign]
            rw [hd]
            simpa using hxe
        rw [insertEntry, if_neg (by simp [hgood]), habs']
      · rw [insertEntry, if_neg hxd]
        rw [insertEntry, if_neg hxe, ih habs']

theorem insertEntry_preserve_many (e : Entry) :
    ∀ (S : List Entry) (W : List Entry),
    insertEntry W e = W → (∀ d ∈ S, d.id? ≠ e.id?) →
    insertEntry (S.foldl insertEntry W) e = S.foldl insertEntry W := by
  intro S
  induction S with
  | nil => intro W h _; exact h
  | cons d rest ih =>
    intro W h hd
    rw [List.foldl_cons]
    exact ih _ (insertEntry_preserve e d (hd d (by simp)) W h)
      (fun x hx => hd x (by simp [hx]))

theorem foldl_insert_absorbs : ∀ (S : List Entry) (U : List Entry),
    (∀ e ∈ S, (e.steps.map Prod.fst).Nodup) →
    S.Pairwise (fun a b => a.id? ≠ b.id?) →
    ∀ e ∈ S, insertEntry (S.foldl insertEntry U) e = S.foldl insertEntry U := by
  intro S
  induction S with
  | nil => intro U _ _ e he; simp at he
  | cons e0 rest ih =>
    intro U hnd hp e he
    rw [List.foldl_cons]
    rcases List.mem_cons.mp he with rfl | her
    · have h0 : insertEntry (insertEntry U e) e = insertEntry U e :=
        insertEntry_absorb U e (hnd e (by simp))
      have hd : ∀ d ∈ rest, d.id? ≠ e.id? := by
        intro d hdm hc
        exact (List.pairwise_cons.mp hp).1 d hdm hc.symm
      exact insertEntry_preserve_many e rest (insertEntry U e) h0 hd
    · exact ih _ (fun x hx => hnd x (by simp [hx])) (List.pairwise_cons.mp hp).2 e her

theorem foldl_insert_idem : ∀ (S : List Entry) (U1 : List Entry),
    (∀ e ∈ S, insertEntry U1 e = U1) → S.foldl insertEntry U1 = U1 := by
  intro S
  induction S with
  | nil => intro U1 _; rfl
  | cons e rest ih =>
    intro U1 h
    rw [List.foldl_cons, h e (by simp)]
    exact ih U1 (fun x hx => h x (by simp [hx]))

theorem addEntries_eq_fold (db : StepTimesDB) (S : List Entry)
    (h : ∀ e ∈ S, truthyN e.id? = true) :
    addEntries db S = { db with times := S.foldl insertEntry db.times } := by
  induction S generalizing db with
  | nil => rfl
  | cons e rest ih =>
    have he : truthyN e.id? = true := h e (by simp)
    have hstep : addEntry db e = { db with times := insertEntry db.times e } := by
      rw [addEntry, if_pos he]
    rw [addEntries, List.foldl_cons, hstep]
    have hrec := ih { db with times := insertEntry db.times e } (fun x hx => h x (by simp [hx]))
    rw [addEntries] at hrec
    rw [hrec, List.foldl_cons]

theorem insertEntry_append_skip (e : Entry) :
    ∀ (pre rest : List Entry), (∀ x ∈ pre, (x.id? == e.id?) = false) →
    insertEntry (pre ++ rest) e = pre ++ insertEntry rest e := by
  intro pre
  induction pre with
  | nil => intro rest _; rfl
  | cons x xs ih =>
    intro rest h
    rw [List.cons_append, insertEntry, if_neg (by simp [h x (by simp)]),
      List.cons_append, ih rest (fun y hy => h y (by simp [hy]))]

/-- C7, counterexample: merging a second entry for identifier 1 whose stage
"X" carries a different interval silently replaces the stored value
({start 0, end 10} becomes {start 5, end 7}); `Object.assign` resolves the
conflict by overwrite and no diagnostic of any kind is produced, contrary to
the claim. -/
theorem c7_counterexample :
    (addEntry (addEntry dbEmpty e7a) e7b).times
      = [{ id? := some 1, steps := [(stepX, { start? := some 5, stop? := some 7 })] }] ∧
    StepTimesDB.find (addEntry (addEntry dbEmpty e7a) e7b) 1 ≠ some e7a := by decide

/-- C7, amended: when the same (identifier, stageName) pair appears with
different values in two merged sources, the incoming value silently
overwrites the existing one — `addEntry` merges the new entry onto the first
entry with the same identifier via `Object.assign` (last write wins) and
surfaces no diagnostic. -/
theorem c7_amended (i? f? : Option String) (pre post : List Entry) (ex e : Entry)
    (ht : truthyN e.id? = true) (hid : ex.id? = e.id?)
    (hpre : ∀ x ∈ pre, (x.id? == e.id?) = false)
    (hnd : (e.steps.map Prod.fst).Nodup) :
    addEntry { initialStep := i?, finalStep := f?, times := pre ++ ex :: post } e
      = { initialStep := i?, finalStep := f?,
          times := pre ++ Entry.objAssign ex e :: post } ∧
    ∀ (k : String) (v : Interval), e.get k = some v →
      (Entry.objAssign ex e).get k = some v := by
  constructor
  · rw [addEntry, if_pos ht]
    have h1 : insertEntry (pre ++ ex :: post) e = pre ++ Entry.objAssign ex e :: post := by
      rw [insertEntry_append_skip e pre (ex :: post) hpre, insertEntry,
        if_pos (by simp [hid])]
    rw [h1]
  · intro k v h
    exact objAssign_get ex e k v hnd h

/-- C7, witness: instantiates the amended claim at the concrete conflicting
entries e7a and e7b for identifier 1. -/
theorem c7_witness :
    (addEntry { initialStep := none, finalStep := none, times := [] ++ e7a :: [] } e7b
      = { initialStep := none, finalStep := none, times := [] ++ Entry.objAssign e7a e7b :: [] }) ∧
    (Entry.objAssign e7a e7b).get stepX = some { start? := some 5, stop? := some 7 } := by
  have h := c7_amended none none [] [] e7a e7b (by decide) (by decide) (by decide) (by decide)
  exact ⟨h.1, h.2 stepX { start? := some 5, stop? := some 7 } (by decide)⟩

/-- C8: merging the same snapshot into the unified store twice produces the
same store contents as merging it once, for any snapshot whose entries have
truthy pairwise-distinct identifiers and duplicate-free stage keys (the
invariants every store snapshot satisfies by construction). -/
theorem c8_idempotent (db : StepTimesDB) (S : List Entry)
    (htruthy : ∀ e ∈ S, truthyN e.id? = true)
    (hnd : ∀ e ∈ S, (e.steps.map Prod.fst).Nodup)
    (hdist : S.Pairwise (fun a b => a.id? ≠ b.id?)) :
    addEntries (addEntries db S) S = addEntries db S := by
  rw [addEntries_eq_fold db S htruthy]
  rw [addEntries_eq_fold _ S htruthy]
  have hidem : S.foldl insertEntry (S.foldl insertEntry db.times)
      = S.foldl insertEntry db.times :=
    foldl_insert_idem S _ (foldl_insert_absorbs S db.times hnd hdist)
  rw [hidem]

/-- C8, witness: merging the two-entry snapshot `snapC8` twice into `dbC8U`
leaves the store exactly as after merging it once. -/
theorem c8_witness :
    addEntries (addEntries dbC8U snapC8) snapC8 = addEntries dbC8U snapC8 :=
  c8_idempotent dbC8U snapC8 (by decide) (by decide) (by decide)

/-- C10: `addEntry` leaves the store unchanged (and, being a total function,
returns without throwing) for every entry whose identifier property is falsy —
absent, `null`, or the number 0 (`truthyN` is false exactly on those). -/
theorem c10_falsy_id_skipped (db : StepTimesDB) (e : Entry)
    (h : truthyN e.id? = false) : addEntry db e = db := by
  rw [addEntry, h]
  rfl

/-- C10, witness: the entry `eId0` carries the legitimate numeric identifier 0
yet is never recorded: the store is unchanged. -/
theorem c10_witness :
    truthyN eId0.id? = false ∧ addEntry dbC10 eId0 = dbC10 :=
  ⟨by decide, c10_falsy_id_skipped dbC10 eId0 (by decide)⟩

/-- C5: evaluation of the statistics round-trip scenario on the code.  The
computed report for stage "X" is count 2, min 3, max 15, avg 9, median 9 —
not the claimed count 3, min 3, max 15, avg 9, median 10: the entry with
start 0 is dropped by the truthiness filter of `getDurations`, and the
even-count median is the rounded mean of the two middle values of the
lexicographically sorted durations. -/
theorem c5_eval :
    ((computeStats dbC5).1).stats.lookup stepX
      = some { count := 2, min? := some 3, max? := some 15,
               avg? := some 9, median? := some 9 } := by decide

theorem any_stableSort (lt : α → α → Bool) (l : List α) (p : α → Bool) :
    (stableSort lt l).any p = l.any p := by
  cases h1 : l.any p with
  | true =>
    rw [List.any_eq_true] at h1
    obtain ⟨x, hx, hpx⟩ := h1
    rw [List.any_eq_true]
    exact ⟨x, (stableSort_perm lt l).mem_iff.mpr hx, hpx⟩
  | false =>
    rw [List.any_eq_false] at h1
    rw [List.any_eq_false]
    intro x hx
    exact h1 x ((stableSort_perm lt l).mem_iff.mp hx)

theorem timeLt_intv (a b : Interval) :
    timeLt (JsVal.intv a) (JsVal.intv b) = ivLt a b := rfl

theorem stableInsert_map_intv (a : Interval) : ∀ (l : List Interval),
    stableInsert timeLt (JsVal.intv a) (l.map JsVal.intv)
      = (stableInsert ivLt a l).map JsVal.intv := by
  intro l
  induction l with
  | nil => rfl
  | cons b bs ih =>
    simp only [List.map_cons, stableInsert, timeLt_intv]
    by_cases h : ivLt b a = true
    · simp [h, ih]
    · simp [h]

theorem stableSort_map_intv : ∀ (l : List Interval),
    stableSort timeLt (l.map JsVal.intv) = (stableSort ivLt l).map JsVal.intv := by
  intro l
  induction l with
  | nil => rfl
  | cons a as ih =>
    rw [List.map_cons, stableSort, ih, stableSort, stableInsert_map_intv]

theorem any_map_intv (p : JsVal → Bool) : ∀ (l : List Interval),
    (l.map JsVal.intv).any p = l.any (fun iv => p (JsVal.intv iv)) := by
  intro l
  induction l with
  | nil => rfl
  | cons a as ih => simp [ih]

theorem gapSum_map_intv : ∀ (l : List Interval), gapSum (l.map JsVal.intv) = gapSumIv l
  | [] => rfl
  | [_] => rfl
  | a :: b :: rest => by
    rw [List.map_cons, List.map_cons, gapSum, gapSumIv, ← List.map_cons]
    rw [gapSum_map_intv (b :: rest)]
    rfl

/-- C6, counterexample: for the entry `eC6` with final step "f" starting at
10, the claim's rule (exclude any interval that ENDS after 10) keeps only
stage "a" and yields queued time 0, but `computeQueuedDuration` filters on
the START (keeping "f", whose end 20 is after 10) and yields 8. -/
theorem c6_counterexample :
    queuedDurationClaimRule 10 eC6 = some 0 ∧
    computeQueuedDuration (some stepF) eC6 = some 8 ∧ (8 : Int) ≠ 0 := by decide

/-- C6, amended: when a final stage is designated and its recorded start `s`
is truthy, the inter-stage queuing time of an entry is computed exactly as
`queuedDurationSpec`: collect the entry's intervals that START no later than
`s` (intervals that merely end after `s`, including the final stage's own,
are retained; the identifier property never takes part), return the
unavailable result when any kept interval has a falsy start or end, else sum
the gaps between consecutive intervals sorted by start with ties broken by
end.  Entries whose queued duration is unavailable contribute nothing to the
queued statistics. -/
theorem c6_amended :
    (∀ (f : String) (e : Entry) (s : Int),
        (e.get f).bind (fun iv => iv.start?) = some s → s ≠ 0 →
        computeQueuedDuration (some f) e = queuedDurationSpec s e) ∧
    (∀ (fs : Option String) (e : Entry) (l : List Entry),
        computeQueuedDuration fs e = none →
        queuedDurationsOf fs (e :: l) = queuedDurationsOf fs l) := by
  constructor
  · intro f e s hstart hs
    simp only [computeQueuedDuration, queuedDurationSpec, Option.some_bind]
    rw [if_pos (show truthyN ((e.get f).bind fun iv => iv.start?) = true from by
      rw [hstart]; simpa [truthyN] using hs)]
    simp only [hstart]
    have hvals : (entryValues e).filter
        (fun v => match JsVal.start? v with
          | some u => decide (u ≤ (some s).getD 0)
          | none => false)
        = ((e.steps.map (fun kv => kv.2)).filter (fun iv =>
            match iv.start? with
            | some u => decide (u ≤ s)
            | none => false)).map JsVal.intv := by
      rw [entryValues, List.filter_append]
      have hid : (match e.id? with
          | some v => [JsVal.num v]
          | none => ([] : List JsVal)).filter (fun v => match JsVal.start? v with
            | some u => decide (u ≤ (some s).getD 0)
            | none => false) = [] := by
        cases e.id? <;> simp [JsVal.start?]
      rw [hid, List.nil_append]
      rw [show e.steps.map (fun kv => JsVal.intv kv.2)
          = (e.steps.map (fun kv => kv.2)).map JsVal.intv from by
            rw [List.map_map]; rfl]
      rw [List.filter_map]
      rfl
    rw [hvals, stableSort_map_intv]
    simp only [any_map_intv, gapSum_map_intv, any_stableSort]
    rfl
  · intro fs e l h
    simp [queuedDurationsOf, h]

/-- C6, witness: instantiates the amended claim at the three-interval entry
`eC6w` with final step "f" starting at 10; both computations agree. -/
theorem c6_witness :
    ((eC6w.get stepF).bind (fun iv => iv.start?) = some 10 ∧ (10 : Int) ≠ 0) ∧
    computeQueuedDuration (some stepF) eC6w = queuedDurationSpec 10 eC6w :=
  ⟨⟨by decide, by decide⟩, c6_amended.1 stepF eC6w 10 (by decide) (by decide)⟩

/-! Lemmas for the open-interval resolution of a series (claims C4 and C9). -/

theorem mkOpen_get (st : String) (p : Int × Int) :
    (mkOpen st p).get st = some { start? := some p.2, stop? := none } := by
  simp [mkOpen, Entry.get, getStep_cons]

theorem keyStart_mkOpen (st : String) (p : Int × Int) :
    keyStart st (mkOpen st p) = p.2 := by
  simp [keyStart, mkOpen_get]

theorem resolvedEntry_get (st : String) (starts : List Int) (p : Int × Int) :
    (resolvedEntry st starts p).get st
      = some { start? := some p.2, stop? := nextStart? starts p.2 } := by
  simp [resolvedEntry, Entry.get, getStep_cons]

theorem nextStart?_mem {starts : List Int} {s v : Int}
    (h : nextStart? starts s = some v) : v ∈ starts ∧ s < v := by
  have hm := minAux_mem h
  rw [List.mem_filter] at hm
  exact ⟨hm.1, by simpa using hm.2⟩

theorem collectSteps_aux (st : String) : ∀ (l : List (Int × Int)) (acc : List String),
    acc.contains st = true →
    List.foldl
      (fun acc e => e.steps.foldl
        (fun a kv => if a.contains kv.1 then a else a ++ [kv.1]) acc)
      acc (l.map (mkOpen st)) = acc := by
  intro l
  induction l with
  | nil => intro acc _; rfl
  | cons p rest ih =>
    intro acc h
    rw [List.map_cons, List.foldl_cons]
    rw [show (mkOpen st p).steps.foldl
        (fun a kv => if a.contains kv.1 then a else a ++ [kv.1]) acc
        = if acc.contains st then acc else acc ++ [st] from rfl]
    rw [if_pos h]
    exact ih acc h

theorem collectSteps_series (st : String) (p : Int × Int) (rest : List (Int × Int)) :
    collectSteps ((p :: rest).map (mkOpen st)) = [st] := by
  rw [collectSteps, List.map_cons, List.foldl_cons]
  rw [show (mkOpen st p).steps.foldl
      (fun a kv => if a.contains kv.1 then a else a ++ [kv.1]) ([] : List String)
      = [st] from rfl]
  exact collectSteps_aux st rest [st] (by simp)

theorem idxFrom_map (f : α → β) : ∀ (l : List α) (k : Nat),
    idxFrom k (l.map f) = (idxFrom k l).map (fun q => (q.1, f q.2)) := by
  intro l
  induction l with
  | nil => intro k; rfl
  | cons x xs ih => intro k; simp [idxFrom, ih]

theorem idxFrom_map_snd (g : α → β) : ∀ (l : List α) (k : Nat),
    (idxFrom k l).map (fun q => g q.2) = l.map g := by
  intro l
  induction l with
  | nil => intro k; rfl
  | cons x xs ih => intro k; simp [idxFrom, ih]

theorem mem_idxFrom : ∀ {l : List α} {k : Nat} {q : Nat × α},
    q ∈ idxFrom k l → k ≤ q.1 ∧ q.2 ∈ l := by
  intro l
  induction l with
  | nil => intro k q hq; simp [idxFrom] at hq
  | cons x xs ih =>
    intro k q hq
    rw [idxFrom] at hq
    rcases List.mem_cons.mp hq with rfl | hq'
    · exact ⟨le_refl _, by simp⟩
    · have := ih hq'
      exact ⟨by omega, by simp [this.2]⟩

theorem idxFrom_fst_nodup : ∀ (l : List α) (k : Nat),
    ((idxFrom k l).map Prod.fst).Nodup := by
  intro l
  induction l with
  | nil => intro k; simp [idxFrom]
  | cons x xs ih =>
    intro k
    rw [idxFrom, List.map_cons, List.nodup_cons]
    refine ⟨?_, ih (k + 1)⟩
    intro hk
    obtain ⟨q, hq, hq1⟩ := List.mem_map.mp hk
    have := (mem_idxFrom hq).1
    omega

theorem collectUpdates_allOpen (st : String) : ∀ (M : List (Nat × Entry)),
    (∀ x ∈ M, ∃ s : Int, s ≠ 0 ∧ x.2.get st = some { start? := some s, stop? := none }) →
    collectUpdates st M = nextPairs st M := by
  intro M
  induction M with
  | nil => intro _; rfl
  | cons a rest ih =>
    intro h
    obtain ⟨i, e⟩ := a
    obtain ⟨s, hs, hget⟩ := h (i, e) (by simp)
    have hcond : (truthyN ((e.get st).bind (fun iv => iv.start?))
        && !truthyN ((e.get st).bind (fun iv => iv.stop?))) = true := by
      rw [hget]
      simp [truthyN, hs]
    cases rest with
    | nil =>
      simp only [collectUpdates, hcond, if_true, List.find?]
      rfl
    | cons b r =>
      obtain ⟨sb, hsb, hgetb⟩ := h b (by simp)
      have hpredb : truthyN ((b.2.get st).bind (fun iv => iv.start?)) = true := by
        rw [hgetb]
        simp [truthyN, hsb]
      have hfind : List.find? (fun q : Nat × Entry =>
          truthyN ((q.2.get st).bind (fun iv => iv.start?))) (b :: r) = some b := by
        rw [List.find?_cons]
        simp only [hpredb]
      rw [collectUpdates, if_pos hcond, hfind]
      rw [ih (fun x hx => h x (by simp [hx]))]
      rfl

theorem nextPairs_lookup (st : String) : ∀ (M : List (Nat × Entry)) (i : Nat) (x : Entry),
    M.Pairwise (fun a b => keyStart st a.2 < keyStart st b.2) →
    (M.map Prod.fst).Nodup →
    (i, x) ∈ M →
    (nextPairs st M).lookup i
      = minAux ((M.map (fun q => keyStart st q.2)).filter
          (fun v => decide (keyStart st x < v))) := by
  intro M
  induction M with
  | nil => intro i x _ _ hm; simp at hm
  | cons a M' ih =>
    intro i x hp hnd hm
    rw [List.pairwise_cons] at hp
    rw [List.map_cons, List.nodup_cons] at hnd
    rcases List.mem_cons.mp hm with heq | hm'
    · have hi : a.1 = i := by rw [← heq]
      have hx : a.2 = x := by rw [← heq]
      cases M' with
      | nil =>
        rw [show nextPairs st [a] = [] from rfl]
        rw [show (([] : List (Nat × Int)).lookup i) = none from rfl]
        rw [List.map_cons, List.map_nil, List.filter_cons]
        rw [hx]
        simp [minAux]
      | cons b r =>
        rw [show nextPairs st (a :: b :: r)
            = (a.1, keyStart st b.2) :: nextPairs st (b :: r) from rfl]
        rw [List.lookup, show (i == a.1) = true from by simp [hi]]
        rw [List.map_cons, List.filter_cons]
        rw [if_neg (by rw [hx]; simp)]
        have hall : ∀ v ∈ (b :: r).map (fun q => keyStart st q.2),
            (fun v => decide (keyStart st x < v)) v = true := by
          intro v hv
          obtain ⟨q, hq, rfl⟩ := List.mem_map.mp hv
          have := hp.1 q hq
          rw [← hx]
          simpa using this
        rw [List.filter_eq_self.mpr hall]
        rw [List.map_cons]
        rw [minAux_cons_of_le]
        intro u hu
        obtain ⟨q, hq, rfl⟩ := List.mem_map.mp hu
        have hb := (List.pairwise_cons.mp hp.2).1 q hq
        exact le_of_lt hb
    · have hi : a.1 ≠ i := by
        intro hc
        apply hnd.1
        rw [hc]
        exact List.mem_map.mpr ⟨(i, x), hm', rfl⟩
      cases M' with
      | nil => simp at hm'
      | cons b r =>
        rw [show nextPairs st (a :: b :: r)
            = (a.1, keyStart st b.2) :: nextPairs st (b :: r) from rfl]
        rw [List.map_cons, List.filter_cons]
        rw [if_neg (by
          have hax : keyStart st a.2 < keyStart st x := hp.1 (i, x) hm'
          simp only [decide_eq_true_eq]
          omega)]
        rw [List.lookup, show (i == a.1) = false from
          beq_eq_false_iff_ne.mpr (fun hc => hi hc.symm)]
        rw [ih i x hp.2 hnd.2 hm']

theorem resolveStep_series (st : String) (ps : List (Int × Int))
    (hpos : ∀ p ∈ ps, 0 < p.2)
    (hinj : (ps.map Prod.snd).Pairwise (fun a b => a ≠ b)) :
    resolveStep st (ps.map (mkOpen st)) = ps.map (resolvedEntry st (ps.map Prod.snd)) := by
  have hL : idxFrom 0 (ps.map (mkOpen st)) = (idxFrom 0 ps).map (fun q => (q.1, mkOpen st q.2)) :=
    idxFrom_map (mkOpen st) ps 0
  have hshape : ∀ x ∈ idxFrom 0 (ps.map (mkOpen st)), ∃ p ∈ ps,
      x.2 = mkOpen st p ∧ x.2.get st = some { start? := some p.2, stop? := none }
        ∧ keyStart st x.2 = p.2 := by
    intro x hx
    rw [hL] at hx
    obtain ⟨q, hq, rfl⟩ := List.mem_map.mp hx
    exact ⟨q.2, (mem_idxFrom hq).2, rfl, mkOpen_get st q.2, keyStart_mkOpen st q.2⟩
  have hagree : ∀ a ∈ idxFrom 0 (ps.map (mkOpen st)), ∀ b ∈ idxFrom 0 (ps.map (mkOpen st)),
      (fun a b : Nat × Entry => entryStepLt st a.2 b.2) a b
        = decide ((fun q : Nat × Entry => keyStart st q.2) a
            < (fun q : Nat × Entry => keyStart st q.2) b) := by
    intro a ha b hb
    obtain ⟨pa, -, -, hga, hka⟩ := hshape a ha
    obtain ⟨pb, -, -, hgb, hkb⟩ := hshape b hb
    simp only [entryStepLt, hga, hgb, Option.some_bind, hka, hkb]
  have hsorted_le := stableSort_pairwise (fun q : Nat × Entry => keyStart st q.2)
    (fun a b : Nat × Entry => entryStepLt st a.2 b.2)
    (idxFrom 0 (ps.map (mkOpen st))) hagree
  have hperm := stableSort_perm (fun a b : Nat × Entry => entryStepLt st a.2 b.2)
    (idxFrom 0 (ps.map (mkOpen st)))
  have hLkeys : (idxFrom 0 (ps.map (mkOpen st))).map (fun q : Nat × Entry => keyStart st q.2)
      = ps.map Prod.snd := by
    rw [hL, List.map_map]
    rw [List.map_congr_left (fun q _ => by
      show keyStart st (mkOpen st q.2) = q.2.2
      exact keyStart_mkOpen st q.2)]
    exact idxFrom_map_snd Prod.snd ps 0
  have hkeysperm : List.Perm
      ((stableSort (fun a b : Nat × Entry => entryStepLt st a.2 b.2)
        (idxFrom 0 (ps.map (mkOpen st)))).map (fun q : Nat × Entry => keyStart st q.2))
      (ps.map Prod.snd) := by
    rw [← hLkeys]
    exact hperm.map _
  have hnodup_keys : ((stableSort (fun a b : Nat × Entry => entryStepLt st a.2 b.2)
      (idxFrom 0 (ps.map (mkOpen st)))).map (fun q : Nat × Entry => keyStart st q.2)).Nodup := by
    rw [hkeysperm.nodup_iff]
    exact hinj
  have hstrict : (stableSort (fun a b : Nat × Entry => entryStepLt st a.2 b.2)
      (idxFrom 0 (ps.map (mkOpen st)))).Pairwise
        (fun a b => keyStart st a.2 < keyStart st b.2) := by
    have hne := List.pairwise_map.mp hnodup_keys
    exact (hsorted_le.and hne).imp (fun h => lt_of_le_of_ne h.1 h.2)
  have hfst : ((stableSort (fun a b : Nat × Entry => entryStepLt st a.2 b.2)
      (idxFrom 0 (ps.map (mkOpen st)))).map Prod.fst).Nodup := by
    rw [(hperm.map Prod.fst).nodup_iff, hL, List.map_map]
    exact idxFrom_fst_nodup ps 0
  have hupds : collectUpdates st (stableSort (fun a b : Nat × Entry => entryStepLt st a.2 b.2)
        (idxFrom 0 (ps.map (mkOpen st))))
      = nextPairs st (stableSort (fun a b : Nat × Entry => entryStepLt st a.2 b.2)
        (idxFrom 0 (ps.map (mkOpen st)))) := by
    apply collectUpdates_allOpen
    intro x hx
    obtain ⟨p, hp, -, hget, -⟩ := hshape x (hperm.mem_iff.mp hx)
    exact ⟨p.2, by have := hpos p hp; omega, hget⟩
  simp only [resolveStep]
  rw [hupds]
  set S := stableSort (fun a b : Nat × Entry => entryStepLt st a.2 b.2)
      (idxFrom 0 (ps.map (mkOpen st))) with hS
  have hpoint : ∀ q ∈ idxFrom 0 ps,
      ((fun p : Nat × Entry =>
          match (nextPairs st S).lookup p.1 with
          | some v => p.2.setStopTime st v
          | none => p.2) ∘ (fun q : Nat × (Int × Int) => (q.1, mkOpen st q.2))) q
        = resolvedEntry st (ps.map Prod.snd) q.2 := by
    intro q hq
    show (match (nextPairs st S).lookup q.1 with
      | some v => (mkOpen st q.2).setStopTime st v
      | none => mkOpen st q.2) = resolvedEntry st (ps.map Prod.snd) q.2
    have hmem : (q.1, mkOpen st q.2) ∈ S := by
      rw [hS, hperm.mem_iff, hL]
      exact List.mem_map.mpr ⟨q, hq, rfl⟩
    have hlook := nextPairs_lookup st S q.1 (mkOpen st q.2) hstrict hfst hmem
    rw [keyStart_mkOpen] at hlook
    rw [minAux_perm (hkeysperm.filter (fun v => decide (q.2.2 < v)))] at hlook
    rw [show minAux (List.filter (fun v => decide (q.2.2 < v)) (ps.map Prod.snd))
        = nextStart? (ps.map Prod.snd) q.2.2 from rfl] at hlook
    rw [hlook]
    cases hns : nextStart? (ps.map Prod.snd) q.2.2 with
    | none => simp [resolvedEntry, mkOpen, hns]
    | some v =>
      simp [Entry.setStopTime, mkOpen_get, mkOpen, resolvedEntry, Entry.get, getStep_cons,
        setStep, hns]
  rw [hL, List.map_map, List.map_congr_left hpoint]
  exact idxFrom_map_snd (resolvedEntry st (ps.map Prod.snd)) ps 0

theorem computeStats_series (st : String) (i? f? : Option String) (ps : List (Int × Int))
    (hpos : ∀ p ∈ ps, 0 < p.2)
    (hinj : (ps.map Prod.snd).Pairwise (fun a b => a ≠ b)) :
    ((computeStats { initialStep := i?, finalStep := f?, times := ps.map (mkOpen st) }).2).times
      = ps.map (resolvedEntry st (ps.map Prod.snd)) := by
  cases ps with
  | nil => rfl
  | cons p rest =>
    have hcs := collectSteps_series st p rest
    show List.foldl (fun ts stp => resolveStep stp ts)
        ((p :: rest).map (mkOpen st)) (collectSteps ((p :: rest).map (mkOpen st)))
      = (p :: rest).map (resolvedEntry st ((p :: rest).map Prod.snd))
    rw [hcs, List.foldl_cons, List.foldl_nil]
    exact resolveStep_series st (p :: rest) hpos hinj

theorem getDurations_series (st : String) (starts : List Int)
    (hstarts : ∀ v ∈ starts, 0 < v) :
    ∀ (l : List (Int × Int)), (∀ p ∈ l, 0 < p.2) →
    getDurations (l.map (resolvedEntry st starts)) st st
      = l.filterMap (fun p => (nextStart? starts p.2).map (fun v => v - p.2)) := by
  intro l
  induction l with
  | nil => intro _; rfl
  | cons p rest ih =>
    intro hl
    rw [List.map_cons]
    rw [show getDurations (resolvedEntry st starts p :: rest.map (resolvedEntry st starts)) st st
        = (if truthyN ((resolvedEntry st starts p).get st |>.bind (fun iv => iv.stop?))
              && truthyN ((resolvedEntry st starts p).get st |>.bind (fun iv => iv.start?)) then
            (((resolvedEntry st starts p).get st |>.bind (fun iv => iv.stop?)).getD 0
              - ((resolvedEntry st starts p).get st |>.bind (fun iv => iv.start?)).getD 0)
              :: getDurations (rest.map (resolvedEntry st starts)) st st
          else getDurations (rest.map (resolvedEntry st starts)) st st) from by
      rw [getDurations, List.filterMap_cons]
      cases hc : (truthyN ((resolvedEntry st starts p).get st |>.bind (fun iv => iv.stop?))
          && truthyN ((resolvedEntry st starts p).get st |>.bind (fun iv => iv.start?))) with
      | true => simp only [hc, if_true]; rfl
      | false => simp only [hc, if_false]; rfl]
    rw [List.filterMap_cons]
    rw [resolvedEntry_get]
    cases hns : nextStart? starts p.2 with
    | none =>
      simp only [Option.some_bind, truthyN, Bool.false_and, if_false, Bool.and_false]
      rw [ih (fun x hx => hl x (by simp [hx]))]
      simp [hns]
    | some v =>
      have hv : v ≠ 0 := by
        have := hstarts v (nextStart?_mem hns).1
        omega
      have hp2 : p.2 ≠ 0 := by
        have := hl p (by simp)
        omega
      simp only [Option.some_bind, hns]
      rw [show (truthyN (some v) && truthyN (some p.2)) = true from by
        simp [truthyN, hv, hp2]]
      simp only [if_true]
      rw [ih (fun x hx => hl x (by simp [hx]))]
      simp

/-- C4, counterexample: a display series whose first entry has the legitimate
start timestamp 0 (entries with starts 0 and 40, no ends).  The claim demands
that computeStats set the first entry's end to 40, but the truthiness test
`entry[step]?.start` skips the 0-start entry: the store is left unchanged and
the stage's duration list is empty instead of [40]. -/
theorem c4_counterexample :
    (computeStats dbC4z).2.times = dbC4z.times ∧
    (StepTimesDB.find (computeStats dbC4z).2 1).map (fun e => e.get stepDisplay)
      = some (some { start? := some 0, stop? := none }) ∧
    getDurations (computeStats dbC4z).2.times stepDisplay stepDisplay = [] := by decide

/-- C4, amended: for every stage and every series of entries carrying only
that stage with pairwise-distinct NONZERO starts and no ends, `computeStats`
sorts the entries by the stage's start and sets each entry's end to the next
entry's start in that order (the least strictly greater start of the series,
`nextStart?`); the final entry (maximal start) keeps an open interval and is
excluded from the stage's duration list, which consists of the consecutive
differences.  In particular the display series with starts [100, 140, 190]
resolves to ends [140, 190, open], durations [40, 50], and a display report
with count 2. -/
theorem c4_amended :
    (∀ (st : String) (i? f? : Option String) (ps : List (Int × Int)),
        (∀ p ∈ ps, 0 < p.2) → (ps.map Prod.snd).Pairwise (fun a b => a ≠ b) →
        ((computeStats { initialStep := i?, finalStep := f?, times := ps.map (mkOpen st) }).2).times
            = ps.map (resolvedEntry st (ps.map Prod.snd)) ∧
        getDurations ((computeStats { initialStep := i?, finalStep := f?, times := ps.map (mkOpen st) }).2).times st st
            = ps.filterMap (fun p => (nextStart? (ps.map Prod.snd) p.2).map (fun v => v - p.2))) ∧
    ((computeStats dbC4s).2.times
        = [ { id? := some 1, steps := [(stepDisplay, { start? := some 100, stop? := some 140 })] },
            { id? := some 2, steps := [(stepDisplay, { start? := some 140, stop? := some 190 })] },
            { id? := some 3, steps := [(stepDisplay, { start? := some 190, stop? := none })] } ] ∧
     getDurations (computeStats dbC4s).2.times stepDisplay stepDisplay = [40, 50] ∧
     ((computeStats dbC4s).1).stats.lookup stepDisplay
        = some { count := 2, min? := some 40, max? := some 50,
                 avg? := some 45, median? := some 45 }) := by
  constructor
  · intro st i? f? ps hpos hinj
    have h1 := computeStats_series st i? f? ps hpos hinj
    refine ⟨h1, ?_⟩
    rw [h1]
    refine getDurations_series st (ps.map Prod.snd) ?_ ps hpos
    intro v hv
    obtain ⟨p, hp, rfl⟩ := List.mem_map.mp hv
    exact hpos p hp
  · exact ⟨by decide, by decide, by decide⟩

/-- C4, witness: the general amended statement instantiated at the display
scenario series [(1,100), (2,140), (3,190)]. -/
theorem c4_witness :
    ((computeStats { initialStep := none, finalStep := none, times := [((1 : Int), (100 : Int)), (2, 140), (3, 190)].map (mkOpen stepDisplay) }).2).times
        = [((1 : Int), (100 : Int)), (2, 140), (3, 190)].map
            (resolvedEntry stepDisplay ([((1 : Int), (100 : Int)), (2, 140), (3, 190)].map Prod.snd)) ∧
    getDurations ((computeStats { initialStep := none, finalStep := none, times := [((1 : Int), (100 : Int)), (2, 140), (3, 190)].map (mkOpen stepDisplay) }).2).times
        stepDisplay stepDisplay
      = [((1 : Int), (100 : Int)), (2, 140), (3, 190)].filterMap
          (fun p => (nextStart? ([((1 : Int), (100 : Int)), (2, 140), (3, 190)].map Prod.snd) p.2).map
            (fun v => v - p.2)) :=
  c4_amended.1 stepDisplay none none [((1 : Int), (100 : Int)), (2, 140), (3, 190)]
    (by decide) (by decide)

/-- C9: computeStats is not read-only on the store.  (1) The report's `all`
field is the store's (updated) entry array itself, for every store.  (2) For
every stage name — designated or not, the resolution loop runs for every
collected step — a series with distinct nonzero starts and no ends has its
end fields written into the stored entries (the store returned by
computeStats carries the resolved ends).  (3) On the concrete store `dbC9`
(undesignated stage "proc", starts 100 and 140) the store differs after the
call, and a second computeStats call observes the first call's writes: its
`all` field equals the mutated entry array. -/
theorem c9_frame_effect :
    (∀ db : StepTimesDB, ((computeStats db).1).all = ((computeStats db).2).times) ∧
    (∀ (st : String) (i? f? : Option String) (ps : List (Int × Int)),
        (∀ p ∈ ps, 0 < p.2) → (ps.map Prod.snd).Pairwise (fun a b => a ≠ b) →
        ((computeStats { initialStep := i?, finalStep := f?, times := ps.map (mkOpen st) }).2).times
          = ps.map (resolvedEntry st (ps.map Prod.snd))) ∧
    ((computeStats dbC9).2.times ≠ dbC9.times ∧
     (computeStats ((computeStats dbC9).2)).1.all = (computeStats dbC9).2.times) := by
  refine ⟨fun db => rfl,
    fun st i? f? ps hpos hinj => computeStats_series st i? f? ps hpos hinj,
    by decide, by decide⟩

/-- C9, witness: the aliasing conjunct at `dbC9` and the in-place write
conjunct at the out-of-order series [(7,5), (8,3)] on the undesignated stage
"proc" (the 3-start entry gets end 5; the maximal 5-start entry stays open). -/
theorem c9_witness :
    ((computeStats dbC9).1).all = ((computeStats dbC9).2).times ∧
    ((computeStats { initialStep := none, finalStep := none, times := [((7 : Int), (5 : Int)), (8, 3)].map (mkOpen stepProc) }).2).times
      = [((7 : Int), (5 : Int)), (8, 3)].map
          (resolvedEntry stepProc ([((7 : Int), (5 : Int)), (8, 3)].map Prod.snd)) :=
  ⟨c9_frame_effect.1 dbC9,
   c9_frame_effect.2.1 stepProc none none [((7 : Int), (5 : Int)), (8, 3)]
     (by decide) (by decide)⟩

end MediaTests
